import Mathlib

/-!
Verification of the sender-identity extraction and aggregation logic of the
Gmail-Analyzer repository (src/analyze_senders.py).

Strings are modelled as `List Char`.  Python string primitives used by the
source are modelled explicitly:

* `str.strip()` / `str.strip(ch)` remove ALL leading and trailing characters
  of the given class (`pyStripWith`);
* `str.lower()` lowercases ASCII letters (`pyLowerChar`, `pyLower`) —
  the inputs of interest are ASCII, so the ASCII fragment of Python's
  `str.lower` is the model;
* `re.search` for the three concrete patterns of the source is modelled by
  operational scanners with Python's leftmost, greedy-with-backtracking
  semantics, specialised to those patterns:
  - a pattern for an angle-bracket pair with non-empty content, group 1 being
    the content (`searchAngle` with `takeToGt`);
  - a generic e-mail pattern: one or more word/dot/hyphen characters, an at
    sign, one or more word/dot/hyphen characters, a dot, one or more word
    characters (`searchEmail` with `matchEmailAt` and `lastDotSplit`);
  - an anchored pattern taking one or more non-angle characters followed by
    an opening angle bracket, group 1 being the prefix (`matchNameSeg`);
  `\w` is modelled by its ASCII fragment (letters, digits, underscore).

A Python `dict` preserves insertion order and updating an existing key keeps
its position, so the aggregation dict is an insertion-ordered association
list (`bump`).  Python's `sorted` with `reverse=True` is a stable descending
sort; as a function of its input it is modelled by the stable insertion sort
`sortDesc`.  Python's slice `l[:n]` is total for every integer `n`
(`pyTake`).
-/

/-- ASCII lowercasing of one character, the ASCII fragment of Python
`str.lower` (codepoints 65–90 shift to 97–122, everything else is kept). -/
def pyLowerChar (c : Char) : Char :=
  if 65 ≤ c.toNat ∧ c.toNat ≤ 90 then Char.ofNat (c.toNat + 32) else c

/-- Python `str.lower`, character-wise. -/
def pyLower (l : List Char) : List Char := l.map pyLowerChar

/-- Python `str.isspace` set used by bare `str.strip()`:
space, tab, newline, carriage return, vertical tab, form feed. -/
def pyIsSpace (c : Char) : Bool :=
  decide (c.toNat = 32 ∨ c.toNat = 9 ∨ c.toNat = 10 ∨ c.toNat = 13 ∨
    c.toNat = 11 ∨ c.toNat = 12)

/-- The ASCII fragment of the regex class `\w`: letters, digits, underscore. -/
def isWordChar (c : Char) : Bool :=
  decide ((65 ≤ c.toNat ∧ c.toNat ≤ 90) ∨ (97 ≤ c.toNat ∧ c.toNat ≤ 122) ∨
    (48 ≤ c.toNat ∧ c.toNat ≤ 57) ∨ c.toNat = 95)

/-- The regex class of the e-mail pattern: `\w`, dot (46) or hyphen (45). -/
def isClassChar (c : Char) : Bool :=
  isWordChar c || decide (c.toNat = 46) || decide (c.toNat = 45)

/-- Python `str.strip(chars)`: drop every leading and every trailing
character satisfying `p`. -/
def pyStripWith (p : Char → Bool) (l : List Char) : List Char :=
  ((l.dropWhile p).reverse.dropWhile p).reverse

/-- Python bare `str.strip()`: strip whitespace on both ends. -/
def pyStrip (l : List Char) : List Char := pyStripWith pyIsSpace l

/-- The double-quote character. -/
def dquote : Char := Char.ofNat 34

/-- The single-quote character. -/
def squote : Char := Char.ofNat 39

/-- The characters of `l` strictly before its first closing angle bracket,
or `none` when `l` has no closing angle bracket. -/
def takeToGt : List Char → Option (List Char)
  | [] => none
  | c :: rest => if c = '>' then some [] else (takeToGt rest).map (fun t => c :: t)

/-- `re.search` of the angle-bracket pattern of `extract_email_address`
(line 24 of src/analyze_senders.py), returning group 1: the content of the
leftmost angle-bracket pair whose content is non-empty and free of closing
brackets. -/
def searchAngle : List Char → Option (List Char)
  | [] => none
  | c :: rest =>
    if c = '<' then
      match takeToGt rest with
      | some (d :: ds) => some (d :: ds)
      | _ => searchAngle rest
    else searchAngle rest

/-- Backtracking split of the domain part of the e-mail pattern: the
rightmost dot of `l` that is immediately followed by a word character,
returned as the part before the dot together with the maximal word-character
run after it (the greedy choice of a Python regex engine). -/
def lastDotSplit : List Char → Option (List Char × List Char)
  | [] => none
  | c :: rest =>
    match lastDotSplit rest with
    | some (pre, run) => some (c :: pre, run)
    | none =>
      if c = '.' ∧ rest.takeWhile isWordChar ≠ [] then
        some ([], rest.takeWhile isWordChar)
      else none

/-- One attempt of the e-mail pattern of `extract_email_address` (line 29 of
src/analyze_senders.py) anchored at the head of `l`: a maximal non-empty run
of class characters, an at sign, then a class-character run that backtracks
to leave a dot followed by word characters. -/
def matchEmailAt (l : List Char) : Option (List Char) :=
  match l.dropWhile isClassChar with
  | d :: rest =>
    if d = '@' then
      if l.takeWhile isClassChar = [] then none
      else
        match lastDotSplit (rest.takeWhile isClassChar) with
        | some (pre, run) =>
          if pre = [] then none
          else some (l.takeWhile isClassChar ++ '@' :: (pre ++ '.' :: run))
        | none => none
    else none
  | [] => none

/-- `re.search` of the e-mail pattern: try `matchEmailAt` at every start
position from the left, returning group 0 of the first success. -/
def searchEmail : List Char → Option (List Char)
  | [] => none
  | c :: rest =>
    match matchEmailAt (c :: rest) with
    | some m => some m
    | none => searchEmail rest

/-- `extract_email_address` (lines 12–34 of src/analyze_senders.py): angle
bracket content first, else the first e-mail-pattern match, else the whole
field; in every branch stripped of whitespace and lowercased. -/
def extract_email_address (s : List Char) : List Char :=
  match searchAngle s with
  | some g => pyLower (pyStrip g)
  | none =>
    match searchEmail s with
    | some m => pyLower (pyStrip m)
    | none => pyLower (pyStrip s)

/-- The characters of `l` strictly before its first opening angle bracket,
or `none` when `l` has no opening angle bracket. -/
def scanToLt : List Char → Option (List Char)
  | [] => none
  | c :: rest => if c = '<' then some [] else (scanToLt rest).map (fun t => c :: t)

/-- `re.search` of the anchored name pattern of `extract_sender_name`
(line 48 of src/analyze_senders.py), returning group 1: the non-empty prefix
before the first opening angle bracket, when the string neither starts with
an opening angle bracket nor lacks one. -/
def matchNameSeg (s : List Char) : Option (List Char) :=
  match s with
  | [] => none
  | c :: rest =>
    if c = '<' then none
    else
      match scanToLt rest with
      | some t => some (c :: t)
      | none => none

/-- `extract_sender_name` (lines 37–55 of src/analyze_senders.py): the
name segment stripped of whitespace, then of all surrounding double quotes,
then of all surrounding single quotes; on an empty result or a failed match,
fall back to `extract_email_address`. -/
def extract_sender_name (s : List Char) : List Char :=
  match matchNameSeg s with
  | some g =>
    let n := pyStripWith (fun c => c = squote)
      (pyStripWith (fun c => c = dquote) (pyStrip g))
    if n = [] then extract_email_address s else n
  | none => extract_email_address s

/-- An input e-mail record; `fromField` is the value of its `from` key, the
empty string standing for an absent or empty field (`email.get('from', '')`
followed by the falsiness test of line 96 treats those alike). -/
structure Email where
  fromField : List Char

/-- One aggregated row: address, first-seen display name, count. -/
abbrev SenderRec := List Char × List Char × Nat

/-- One dict update of lines 102–105 of src/analyze_senders.py: increment
the count of the row with this address, keeping its position and its name,
or append a fresh row with count 1. -/
def bump : List SenderRec → List Char → List Char → List SenderRec
  | [], a, n => [(a, n, 1)]
  | (a0, n0, c0) :: t, a, n =>
    if a0 = a then (a0, n0, c0 + 1) :: t else (a0, n0, c0) :: bump t a n

/-- One iteration of the loop of lines 94–105: skip an empty `from` field,
otherwise update the dict at the extracted address. -/
def stepSender (t : List SenderRec) (e : Email) : List SenderRec :=
  if e.fromField = [] then t
  else bump t (extract_email_address e.fromField) (extract_sender_name e.fromField)

/-- The aggregation dict after the whole loop, as an insertion-ordered
association list. -/
def senderInfo (emails : List Email) : List SenderRec :=
  emails.foldl stepSender []

/-- Stable descending insertion: place `x` before the first row whose count
is at most the count of `x`. -/
def insertDesc (x : SenderRec) : List SenderRec → List SenderRec
  | [] => [x]
  | y :: ys => if y.2.2 ≤ x.2.2 then x :: y :: ys else y :: insertDesc x ys

/-- Python `sorted(..., key=lambda x: x[1][1], reverse=True)` of line 108:
the stable sort by count descending, modelled by stable insertion sort. -/
def sortDesc : List SenderRec → List SenderRec
  | [] => []
  | x :: xs => insertDesc x (sortDesc xs)

/-- Python slice `l[:n]` for an arbitrary integer `n`: the first `n`
elements when `n ≥ 0`, all but the last `-n` elements when `n < 0`. -/
def pyTake (n : Int) (l : List α) : List α :=
  if 0 ≤ n then l.take n.toNat else l.take ((l.length : Int) + n).toNat

/-- `analyze_senders` (lines 81–111 of src/analyze_senders.py): aggregate,
sort by count descending, slice to the first `top_n` rows.  The final list
comprehension of line 111 only reshapes each dict item
`(email, (name, count))` into the tuple `(email, name, count)`, which is the
identity on this model's rows. -/
def analyze_senders (emails : List Email) (top_n : Int) : List SenderRec :=
  pyTake top_n (sortDesc (senderInfo emails))

/-- The non-empty `from` fields, in input order: exactly the headers the
loop of lines 94–105 processes. -/
def activeHeaders (emails : List Email) : List (List Char) :=
  (emails.map Email.fromField).filter (fun f => f ≠ [])

/-- The normalized identity of §4.1 of the specification. -/
structure Identity where
  address : List Char
  displayName : List Char
deriving DecidableEq

/-- The `extract` contract of §4.1: both components of the identity. -/
def extract (raw : List Char) : Identity :=
  ⟨extract_email_address raw, extract_sender_name raw⟩

/-- Spec-worded reading of the angle-bracket step of claim C5: the substring
strictly between the first opening angle bracket of `s` and the first
closing angle bracket after it, when both exist. -/
def specAngleContent (s : List Char) : Option (List Char) :=
  match s.dropWhile (fun c => c ≠ '<') with
  | [] => none
  | _ :: rest =>
    if ('>') ∈ rest then some (rest.takeWhile (fun c => c ≠ '>')) else none

/-- Spec-worded reading of the amended angle-bracket step: the substring
between the first opening angle bracket that has at least one character
before the next closing angle bracket, and that closing bracket. -/
def specAngleFirstNonempty : List Char → Option (List Char)
  | [] => none
  | c :: rest =>
    if c = '<' ∧ ('>') ∈ rest ∧ rest.takeWhile (fun d => d ≠ '>') ≠ [] then
      some (rest.takeWhile (fun d => d ≠ '>'))
    else specAngleFirstNonempty rest

/-- Spec-worded quote trimming of claim C6: remove exactly one layer of
surrounding quotes — the first and last character together, when the list
has at least two characters and both are the same quote character. -/
def oneQuoteLayer (l : List Char) : List Char :=
  if 2 ≤ l.length ∧ l.head? = l.getLast? ∧
      (l.head? = some dquote ∨ l.head? = some squote) then
    l.tail.dropLast
  else l

/-- First-encounter order: the distinct elements of `l` in the order of
their first occurrence. -/
def firstSeen (l : List (List Char)) : List (List Char) :=
  l.foldl (fun acc a => if a ∈ acc then acc else acc ++ [a]) []

/-- A bare e-mail address: a full match of the e-mail pattern, split as
local part, at sign, domain, rightmost dot, and word-character suffix. -/
def isBareAddress (l : List Char) : Bool :=
  match l.dropWhile isClassChar with
  | d :: rest =>
    decide (d = '@') && decide (l.takeWhile isClassChar ≠ []) && rest.all isClassChar &&
      (match lastDotSplit rest with
       | some (pre, run) => decide (pre ≠ []) && decide (pre ++ '.' :: run = rest)
       | none => false)
  | [] => false

/-- One dict update keyed by a header: extract, then `bump`. -/
def bumpH (t : List SenderRec) (h : List Char) : List SenderRec :=
  bump t (extract_email_address h) (extract_sender_name h)

/-- First row of the table with the given address. -/
def lookupAddr (t : List SenderRec) (a : List Char) : Option SenderRec :=
  t.find? (fun r => r.1 = a)

/-- Invariant tying the aggregation table to the processed headers `p`:
addresses are distinct; the row found at an address records the name of the
first header with that address and the number of headers with it; the
total count is the number of processed headers; the address column is the
first-encounter order of the extracted addresses. -/
def goodTable (t : List SenderRec) (p : List (List Char)) : Prop :=
  ((t.map (fun r => r.1)).Nodup) ∧
  (∀ a, lookupAddr t a =
    (p.find? (fun g => extract_email_address g = a)).map
      (fun g => (a, extract_sender_name g,
        (p.filter (fun g2 => extract_email_address g2 = a)).length))) ∧
  (((t.map (fun r => r.2.2)).sum) = p.length) ∧
  (t.map (fun r => r.1) = firstSeen (p.map extract_email_address))

/-- A sample input with one repeated sender under differing spellings. -/
def sampleB : List Email :=
  [⟨"b@y.org".toList⟩, ⟨"Alice <a@x.com>".toList⟩, ⟨"A@X.com".toList⟩]

/-- Two characters are equal exactly when their codepoints are. -/
theorem char_eq_iff_toNat (a b : Char) : a = b ↔ a.toNat = b.toNat := by
  constructor
  · intro h; rw [h]
  · intro h; exact Char.ext (UInt32.toNat.inj h)

/-- Codepoint of an ASCII-lowercased character. -/
theorem pyLowerChar_toNat (c : Char) :
    (pyLowerChar c).toNat =
      if 65 ≤ c.toNat ∧ c.toNat ≤ 90 then c.toNat + 32 else c.toNat := by
  unfold pyLowerChar
  split
  · rename_i h
    have hb : c.toNat + 32 < 55296 := by omega
    unfold Char.ofNat
    rw [dif_pos (Or.inl hb)]
    rfl
  · rfl

/-- ASCII lowercasing is idempotent. -/
theorem pyLowerChar_idem (c : Char) : pyLowerChar (pyLowerChar c) = pyLowerChar c := by
  rw [char_eq_iff_toNat]
  simp only [pyLowerChar_toNat]
  split_ifs <;> omega

/-- Lowercasing does not create or destroy equality with a non-letter. -/
theorem pyLowerChar_eq_iff (c d : Char) (h1 : ¬(65 ≤ d.toNat ∧ d.toNat ≤ 90))
    (h2 : ¬(97 ≤ d.toNat ∧ d.toNat ≤ 122)) : (pyLowerChar c = d) ↔ (c = d) := by
  rw [char_eq_iff_toNat, char_eq_iff_toNat, pyLowerChar_toNat]
  split_ifs <;> omega

/-- Word-character membership is invariant under lowercasing. -/
theorem isWordChar_pyLowerChar (c : Char) : isWordChar (pyLowerChar c) = isWordChar c := by
  simp only [isWordChar, pyLowerChar_toNat]
  rw [decide_eq_decide]
  split_ifs <;> omega

/-- E-mail-class membership is invariant under lowercasing. -/
theorem isClassChar_pyLowerChar (c : Char) : isClassChar (pyLowerChar c) = isClassChar c := by
  simp only [isClassChar, isWordChar_pyLowerChar, pyLowerChar_toNat]
  congr 1
  congr 1
  all_goals rw [decide_eq_decide]; split_ifs <;> omega

/-- Whitespace membership is invariant under lowercasing. -/
theorem pyIsSpace_pyLowerChar (c : Char) : pyIsSpace (pyLowerChar c) = pyIsSpace c := by
  simp only [pyIsSpace, pyLowerChar_toNat]
  rw [decide_eq_decide]
  split_ifs <;> omega

/-- A whitespace character is not an e-mail-class character. -/
theorem not_isClassChar_of_pyIsSpace (c : Char) (h : pyIsSpace c = true) :
    isClassChar c = false := by
  simp only [pyIsSpace, decide_eq_true_eq] at h
  simp only [isClassChar, isWordChar, Bool.or_eq_false_iff, decide_eq_false_iff_not]
  omega

/-- A word character is an e-mail-class character. -/
theorem isClassChar_of_isWordChar (c : Char) (h : isWordChar c = true) :
    isClassChar c = true := by
  simp [isClassChar, h]

/-- The dot is an e-mail-class character. -/
theorem isClassChar_dot : isClassChar '.' = true := by decide

/-- A word character is not a dot. -/
theorem isWordChar_ne_dot (c : Char) (h : isWordChar c = true) : c ≠ '.' := by
  simp only [isWordChar, decide_eq_true_eq] at h
  intro hc
  rw [char_eq_iff_toNat] at hc
  have hd : ('.').toNat = 46 := rfl
  omega

/-- An e-mail-class character is not a whitespace character. -/
theorem not_pyIsSpace_of_isClassChar (c : Char) (h : isClassChar c = true) :
    pyIsSpace c = false := by
  simp only [isClassChar, isWordChar, Bool.or_eq_true, decide_eq_true_eq] at h
  simp only [pyIsSpace, decide_eq_false_iff_not]
  omega

/-- `takeWhile` runs through a prefix all of whose elements satisfy `p`. -/
theorem takeWhile_append_all (p : α → Bool) (xs ys : List α) (h : ∀ x ∈ xs, p x = true) :
    (xs ++ ys).takeWhile p = xs ++ ys.takeWhile p := by
  induction xs with
  | nil => rfl
  | cons x xs ih =>
    rw [List.cons_append, List.takeWhile_cons_of_pos (h x (by simp))]
    rw [List.cons_append, ih (fun a ha => h a (by simp [ha]))]

/-- `dropWhile` skips a prefix all of whose elements satisfy `p`. -/
theorem dropWhile_append_all (p : α → Bool) (xs ys : List α) (h : ∀ x ∈ xs, p x = true) :
    (xs ++ ys).dropWhile p = ys.dropWhile p := by
  induction xs with
  | nil => rfl
  | cons x xs ih =>
    rw [List.cons_append, List.dropWhile_cons_of_pos (h x (by simp))]
    exact ih (fun a ha => h a (by simp [ha]))

/-- `takeWhile` keeps a list all of whose elements satisfy `p`. -/
theorem takeWhile_eq_self_all (p : α → Bool) (l : List α) (h : ∀ x ∈ l, p x = true) :
    l.takeWhile p = l := by
  have := takeWhile_append_all p l [] h
  simpa using this

/-- `dropWhile` is the identity when no element satisfies `p`. -/
theorem dropWhile_eq_self_none (p : α → Bool) (l : List α) (h : ∀ x ∈ l, p x = false) :
    l.dropWhile p = l := by
  cases l with
  | nil => rfl
  | cons x xs => rw [List.dropWhile_cons_of_neg (by simp [h x (by simp)])]

/-- `takeWhile` is empty when the head fails `p`. -/
theorem takeWhile_eq_nil_head (p : α → Bool) (x : α) (l : List α) (h : p x = false) :
    (x :: l).takeWhile p = [] := by
  rw [List.takeWhile_cons_of_neg (by simp [h])]

/-- A Python strip leaves the input unchanged when no character is
strippable. -/
theorem pyStripWith_eq_self (p : Char → Bool) (l : List Char) (h : ∀ c ∈ l, p c = false) :
    pyStripWith p l = l := by
  unfold pyStripWith
  rw [dropWhile_eq_self_none p l h]
  rw [dropWhile_eq_self_none p l.reverse (fun c hc => h c (List.mem_reverse.mp hc))]
  exact List.reverse_reverse l

/-- Decomposition of a Python strip: the input is the stripped core wrapped
in two runs of strippable characters. -/
theorem pyStripWith_decomp (p : Char → Bool) (l : List Char) :
    ∃ w1 w2, l = w1 ++ pyStripWith p l ++ w2 ∧
      (∀ c ∈ w1, p c = true) ∧ (∀ c ∈ w2, p c = true) := by
  refine ⟨l.takeWhile p, ((l.dropWhile p).reverse.takeWhile p).reverse, ?_, ?_, ?_⟩
  · have hm : pyStripWith p l ++ ((l.dropWhile p).reverse.takeWhile p).reverse =
        l.dropWhile p := by
      unfold pyStripWith
      rw [← List.reverse_append, List.takeWhile_append_dropWhile]
      exact List.reverse_reverse _
    rw [List.append_assoc, hm]
    exact (List.takeWhile_append_dropWhile (p := p) (l := l)).symm
  · exact fun c hc => List.mem_takeWhile_imp hc
  · exact fun c hc => List.mem_takeWhile_imp (List.mem_reverse.mp hc)

/-- Inserting is a permutation of consing. -/
theorem insertDesc_perm (x : SenderRec) (l : List SenderRec) :
    (insertDesc x l).Perm (x :: l) := by
  induction l with
  | nil => exact List.Perm.refl _
  | cons y ys ih =>
    unfold insertDesc
    split
    · exact List.Perm.refl _
    · exact (ih.cons y).trans (List.Perm.swap x y ys)

/-- The stable sort permutes its input. -/
theorem sortDesc_perm (l : List SenderRec) : (sortDesc l).Perm l := by
  induction l with
  | nil => exact List.Perm.refl _
  | cons x xs ih =>
    exact (insertDesc_perm x (sortDesc xs)).trans (ih.cons x)

/-- Inserting into a descending list keeps it descending. -/
theorem insertDesc_pairwise (x : SenderRec) (l : List SenderRec)
    (h : l.Pairwise (fun a b => b.2.2 ≤ a.2.2)) :
    (insertDesc x l).Pairwise (fun a b => b.2.2 ≤ a.2.2) := by
  induction l with
  | nil => exact List.pairwise_singleton _ _
  | cons y ys ih =>
    unfold insertDesc
    split
    · rename_i hle
      refine List.Pairwise.cons ?_ h
      intro z hz
      rcases List.mem_cons.mp hz with rfl | hz
      · exact hle
      · exact Nat.le_trans (List.rel_of_pairwise_cons h hz) hle
    · rename_i hgt
      refine List.Pairwise.cons ?_ (ih h.of_cons)
      intro z hz
      have hz2 := (insertDesc_perm x ys).mem_iff.mp hz
      rcases List.mem_cons.mp hz2 with rfl | hz3
      · exact Nat.le_of_lt (Nat.lt_of_not_le hgt)
      · exact List.rel_of_pairwise_cons h hz3

/-- The stable sort yields a descending list. -/
theorem sortDesc_pairwise (l : List SenderRec) :
    (sortDesc l).Pairwise (fun a b => b.2.2 ≤ a.2.2) := by
  induction l with
  | nil => exact List.Pairwise.nil
  | cons x xs ih => exact insertDesc_pairwise x (sortDesc xs) ih

/-- Inserting does not disturb the subsequence of any fixed count: every row
passed over by the insertion has a strictly larger count. -/
theorem insertDesc_filter_count (x : SenderRec) (l : List SenderRec) (c : Nat) :
    (insertDesc x l).filter (fun r => r.2.2 = c) =
      (x :: l).filter (fun r => r.2.2 = c) := by
  induction l with
  | nil => rfl
  | cons y ys ih =>
    unfold insertDesc
    split
    · rfl
    · rename_i hgt
      have hlt : x.2.2 < y.2.2 := Nat.lt_of_not_le hgt
      simp only [List.filter_cons, ih]
      by_cases hy : y.2.2 = c
      · have hx : ¬ x.2.2 = c := by omega
        simp [hy, hx]
      · simp [hy]

/-- Stability of the sort: for every count value, filtering the sorted list
to that count gives exactly the input subsequence with that count. -/
theorem sortDesc_filter_count (l : List SenderRec) (c : Nat) :
    (sortDesc l).filter (fun r => r.2.2 = c) = l.filter (fun r => r.2.2 = c) := by
  induction l with
  | nil => rfl
  | cons x xs ih =>
    unfold sortDesc
    rw [insertDesc_filter_count, List.filter_cons, List.filter_cons, ih]

/-- The Python slice with a positive bound is `take`. -/
theorem pyTake_of_nonneg (n : Int) (h : 0 ≤ n) (l : List α) :
    pyTake n l = l.take n.toNat := by
  unfold pyTake
  rw [if_pos h]

/-- The Python slice never yields more rows than the input has. -/
theorem pyTake_length_le (n : Int) (l : List α) : (pyTake n l).length ≤ l.length := by
  unfold pyTake
  split <;> (rw [List.length_take]; exact min_le_right _ _)

/-- The Python slice of an empty list is empty. -/
theorem pyTake_nil (n : Int) : pyTake n ([] : List α) = [] := by
  unfold pyTake
  split <;> simp

/-- The Python slice with bound zero is empty. -/
theorem pyTake_zero (l : List α) : pyTake 0 l = [] := by
  unfold pyTake
  simp

/-- The aggregation loop is the fold of `bumpH` over the non-empty headers. -/
theorem senderInfo_eq_foldl (emails : List Email) :
    senderInfo emails = (activeHeaders emails).foldl bumpH [] := by
  suffices hgen : ∀ (es : List Email) (t : List SenderRec),
      es.foldl stepSender t = (activeHeaders es).foldl bumpH t by
    exact hgen emails []
  intro es
  induction es with
  | nil => intro t; rfl
  | cons e es ih =>
    intro t
    unfold activeHeaders
    rw [List.map_cons, List.filter_cons]
    by_cases he : e.fromField = []
    · simp only [he, List.foldl_cons]
      rw [show stepSender t e = t from by unfold stepSender; rw [if_pos he]]
      simpa [activeHeaders] using ih t
    · rw [if_pos (by simp [he]), List.foldl_cons, List.foldl_cons]
      rw [show stepSender t e = bumpH t e.fromField from by
        unfold stepSender bumpH; rw [if_neg he]]
      simpa [activeHeaders] using ih (bumpH t e.fromField)

/-- Looking up the bumped address: fresh rows carry count 1, existing rows
keep name and position and gain one count. -/
theorem bump_lookup_self (t : List SenderRec) (a n : List Char) :
    lookupAddr (bump t a n) a =
      some (a, ((lookupAddr t a).map (fun r => (r.2.1, r.2.2 + 1))).getD (n, 1)) := by
  induction t with
  | nil =>
    unfold bump lookupAddr
    rw [List.find?_cons_of_pos _ (by simp)]
    rfl
  | cons r0 t ih =>
    obtain ⟨a0, n0, c0⟩ := r0
    unfold bump
    by_cases ha : a0 = a
    · subst ha
      rw [if_pos rfl]
      unfold lookupAddr
      rw [List.find?_cons_of_pos _ (by simp), List.find?_cons_of_pos _ (by simp)]
      rfl
    · rw [if_neg ha]
      unfold lookupAddr at ih ⊢
      rw [List.find?_cons_of_neg _ (by simp [ha]), List.find?_cons_of_neg _ (by simp [ha])]
      exact ih

/-- Looking up any other address is unchanged by a bump. -/
theorem bump_lookup_other (t : List SenderRec) (a n a2 : List Char) (h : a2 ≠ a) :
    lookupAddr (bump t a n) a2 = lookupAddr t a2 := by
  have hna : ¬ a = a2 := fun hh => h hh.symm
  induction t with
  | nil =>
    unfold bump lookupAddr
    rw [List.find?_cons_of_neg _ (by simp [hna])]
  | cons r0 t ih =>
    obtain ⟨a0, n0, c0⟩ := r0
    unfold bump
    by_cases ha : a0 = a
    · subst ha
      rw [if_pos rfl]
      unfold lookupAddr
      rw [List.find?_cons_of_neg _ (by simp [hna]), List.find?_cons_of_neg _ (by simp [hna])]
    · rw [if_neg ha]
      unfold lookupAddr at ih ⊢
      by_cases h2 : a0 = a2
      · rw [List.find?_cons_of_pos _ (by simp [h2]), List.find?_cons_of_pos _ (by simp [h2])]
      · rw [List.find?_cons_of_neg _ (by simp [h2]), List.find?_cons_of_neg _ (by simp [h2])]
        exact ih

/-- Addresses after a bump: unchanged when present, appended when fresh. -/
theorem bump_map_fst (t : List SenderRec) (a n : List Char) :
    (bump t a n).map (fun r => r.1) =
      if a ∈ t.map (fun r => r.1) then t.map (fun r => r.1)
      else t.map (fun r => r.1) ++ [a] := by
  induction t with
  | nil => simp [bump]
  | cons r0 t ih =>
    obtain ⟨a0, n0, c0⟩ := r0
    unfold bump
    by_cases ha : a0 = a
    · subst ha
      rw [if_pos rfl]
      simp
    · rw [if_neg ha]
      have hne : ¬ a = a0 := fun hh => ha hh.symm
      simp only [List.map_cons]
      rw [ih]
      by_cases hm : a ∈ t.map (fun r => r.1)
      · rw [if_pos hm, if_pos (List.mem_cons.mpr (Or.inr hm))]
      · rw [if_neg hm, if_neg (by simp [hm, hne]), List.cons_append]

/-- A bump adds exactly one to the total count. -/
theorem bump_sum (t : List SenderRec) (a n : List Char) :
    ((bump t a n).map (fun r => r.2.2)).sum = ((t.map (fun r => r.2.2)).sum) + 1 := by
  induction t with
  | nil => simp [bump]
  | cons r0 t ih =>
    obtain ⟨a0, n0, c0⟩ := r0
    unfold bump
    by_cases ha : a0 = a
    · subst ha
      rw [if_pos rfl]
      simp only [List.map_cons, List.sum_cons]
      omega
    · rw [if_neg ha]
      simp only [List.map_cons, List.sum_cons, ih]
      omega

/-- A lookup succeeds exactly on the table's addresses. -/
theorem lookupAddr_isSome_iff (t : List SenderRec) (a : List Char) :
    (lookupAddr t a).isSome ↔ a ∈ t.map (fun r => r.1) := by
  unfold lookupAddr
  rw [List.find?_isSome]
  constructor
  · rintro ⟨r, hr, hp⟩
    exact List.mem_map.mpr ⟨r, hr, by simpa using hp⟩
  · rintro h
    obtain ⟨r, hr, ha⟩ := List.mem_map.mp h
    exact ⟨r, hr, by simp [ha]⟩

/-- With distinct addresses, membership determines the lookup result. -/
theorem lookupAddr_of_mem (t : List SenderRec) (hnd : (t.map (fun r => r.1)).Nodup)
    (r : SenderRec) (hr : r ∈ t) : lookupAddr t r.1 = some r := by
  induction t with
  | nil => cases hr
  | cons r0 t ih =>
    rcases List.mem_cons.mp hr with rfl | hr2
    · unfold lookupAddr
      rw [List.find?_cons_of_pos _ (by simp)]
    · have hne : r0.1 ≠ r.1 := by
        intro hh
        have : r0.1 ∈ t.map (fun r => r.1) := by
          rw [hh]; exact List.mem_map.mpr ⟨r, hr2, rfl⟩
        simp only [List.map_cons, List.nodup_cons] at hnd
        exact hnd.1 this
      have hne2 : ¬ r0.1 = r.1 := hne
      unfold lookupAddr
      rw [List.find?_cons_of_neg _ (by simp [hne2])]
      exact ih (by simpa using hnd.of_cons) hr2

/-- Appending one element to the scanned list extends the first-encounter
order on the right when the element is new. -/
theorem firstSeen_append_singleton (l : List (List Char)) (a : List Char) :
    firstSeen (l ++ [a]) = if a ∈ firstSeen l then firstSeen l else firstSeen l ++ [a] := by
  unfold firstSeen
  rw [List.foldl_append]
  rfl

/-- The empty table matches the empty header list. -/
theorem goodTable_nil : goodTable [] [] := by
  refine ⟨List.nodup_nil, ?_, rfl, rfl⟩
  intro a
  rfl

/-- One aggregation step preserves the table invariant. -/
theorem goodTable_step (t : List SenderRec) (p : List (List Char)) (h : List Char)
    (hg : goodTable t p) : goodTable (bumpH t h) (p ++ [h]) := by
  obtain ⟨hg1, hg2, hg3, hg4⟩ := hg
  have hpredh : (fun g => decide (extract_email_address g = extract_email_address h)) h = true := by
    simp
  refine ⟨?_, ?_, ?_, ?_⟩
  · unfold bumpH
    rw [bump_map_fst]
    split
    · exact hg1
    · rename_i hfresh
      simp [List.nodup_append, hg1, hfresh]
  · intro a
    by_cases ha : a = extract_email_address h
    · subst ha
      unfold bumpH
      rw [bump_lookup_self]
      rw [List.find?_append, List.filter_append]
      cases hfind : p.find? (fun g => extract_email_address g = extract_email_address h) with
      | none =>
        have hlook : lookupAddr t (extract_email_address h) = none := by
          rw [hg2, hfind]; rfl
        have hfilp : p.filter
            (fun g2 => extract_email_address g2 = extract_email_address h) = [] := by
          rw [List.filter_eq_nil_iff]
          intro g hgp
          have := List.find?_eq_none.mp hfind g hgp
          simpa using this
        rw [hlook, hfilp]
        simp [Option.or, List.filter_cons, List.find?_cons]
      | some g0 =>
        have hlook : lookupAddr t (extract_email_address h) =
            some (extract_email_address h, extract_sender_name g0,
              (p.filter (fun g2 => extract_email_address g2 =
                extract_email_address h)).length) := by
          rw [hg2, hfind]; rfl
        rw [hlook]
        simp [Option.or, List.filter_cons, List.length_append]
    · unfold bumpH
      rw [bump_lookup_other _ _ _ _ ha]
      rw [hg2, List.find?_append, List.filter_append]
      have hpredha : (fun g => decide (extract_email_address g = a)) h = false := by
        simp
        exact fun hh => ha hh.symm
      have hfindh : List.find? (fun g => extract_email_address g = a) [h] = none := by
        rw [List.find?_cons_of_neg _ (by simp [hpredha])]
        rfl
      have hfilh : List.filter (fun g2 => extract_email_address g2 = a) [h] = [] := by
        rw [List.filter_cons]
        simp only [hpredha]
        rfl
      rw [hfindh, hfilh, Option.or_none, List.append_nil]
  · unfold bumpH
    rw [bump_sum, hg3]
    simp
  · unfold bumpH
    rw [bump_map_fst, List.map_append, List.map_singleton, firstSeen_append_singleton, ← hg4]

/-- Folding the aggregation step over any header list preserves the
invariant. -/
theorem goodTable_foldl (hs : List (List Char)) :
    ∀ (p : List (List Char)) (t : List SenderRec),
      goodTable t p → goodTable (hs.foldl bumpH t) (p ++ hs) := by
  induction hs with
  | nil => intro p t hg; simpa using hg
  | cons h hs ih =>
    intro p t hg
    rw [List.foldl_cons]
    have hstep := goodTable_step t p h hg
    have := ih (p ++ [h]) (bumpH t h) hstep
    simpa [List.append_assoc] using this

/-- The final aggregation table satisfies the invariant against the list of
processed headers. -/
theorem senderInfo_good (emails : List Email) :
    goodTable (senderInfo emails) (activeHeaders emails) := by
  rw [senderInfo_eq_foldl]
  simpa using goodTable_foldl (activeHeaders emails) [] [] goodTable_nil

/-- Mapping preserves definedness of an option. -/
theorem option_isSome_map (f : α → β) (o : Option α) : (o.map f).isSome = o.isSome := by
  cases o <;> rfl

/-- Every row of the table records the name of the first processed header
with its address, and the number of processed headers with its address. -/
theorem senderInfo_mem (emails : List Email) (a n : List Char) (c : Nat)
    (hmem : (a, n, c) ∈ senderInfo emails) :
    ((activeHeaders emails).find? (fun g => extract_email_address g = a)).map
      extract_sender_name = some n ∧
    c = ((activeHeaders emails).filter
      (fun g => extract_email_address g = a)).length := by
  obtain ⟨hg1, hg2, _, _⟩ := senderInfo_good emails
  have hl := lookupAddr_of_mem _ hg1 (a, n, c) hmem
  rw [hg2] at hl
  cases hfind : (activeHeaders emails).find? (fun g => extract_email_address g = a) with
  | none => rw [hfind] at hl; simp at hl
  | some g =>
    rw [hfind] at hl
    simp at hl
    refine ⟨?_, hl.2.symm⟩
    simp [hl.1]

/-- Every recorded count is positive. -/
theorem senderInfo_count_pos (emails : List Email) (r : SenderRec)
    (hr : r ∈ senderInfo emails) : 1 ≤ r.2.2 := by
  obtain ⟨a, n, c⟩ := r
  obtain ⟨hfind, hcount⟩ := senderInfo_mem emails a n c hr
  cases hf : (activeHeaders emails).find? (fun g => extract_email_address g = a) with
  | none => rw [hf] at hfind; simp at hfind
  | some g =>
    have hg1 : g ∈ (activeHeaders emails) := List.mem_of_find?_eq_some hf
    have hg2 := List.find?_some hf
    have hgm : g ∈ (activeHeaders emails).filter (fun g => extract_email_address g = a) :=
      List.mem_filter.mpr ⟨hg1, hg2⟩
    have hlen := List.length_pos.mpr (List.ne_nil_of_mem hgm)
    simp only []
    omega

/-- The table's addresses are exactly the extracted addresses of the
processed headers. -/
theorem senderInfo_mem_fst_iff (emails : List Email) (a : List Char) :
    a ∈ (senderInfo emails).map (fun r => r.1) ↔
      a ∈ (activeHeaders emails).map extract_email_address := by
  obtain ⟨_, hg2, _, _⟩ := senderInfo_good emails
  rw [← lookupAddr_isSome_iff, hg2, option_isSome_map, List.find?_isSome]
  constructor
  · rintro ⟨g, hgp, hpred⟩
    exact List.mem_map.mpr ⟨g, hgp, by simpa using hpred⟩
  · intro hm
    obtain ⟨g, hgp, he⟩ := List.mem_map.mp hm
    exact ⟨g, hgp, by simp [he]⟩

/-- The table has one row per distinct extracted address. -/
theorem senderInfo_length (emails : List Email) :
    (senderInfo emails).length =
      (((activeHeaders emails).map extract_email_address).dedup).length := by
  obtain ⟨hg1, _, _, _⟩ := senderInfo_good emails
  have hperm : ((senderInfo emails).map (fun r => r.1)).Perm
      (((activeHeaders emails).map extract_email_address).dedup) :=
    (List.perm_ext_iff_of_nodup hg1 (List.nodup_dedup _)).mpr
      (fun a => by rw [List.mem_dedup]; exact senderInfo_mem_fst_iff emails a)
  have h1 := hperm.length_eq
  rwa [List.length_map] at h1

/-- A prefix of a list of naturals sums to at most the whole. -/
theorem sum_take_le (l : List Nat) (n : Nat) : (l.take n).sum ≤ l.sum := by
  conv_rhs => rw [← List.take_append_drop n l]
  rw [List.sum_append]
  omega

/-- Claim C1, counterexample: `analyze_senders` performs no validation of
`topN` at all.  At `topN = -1` (and `topN = 0`), both at most `0`, it does
not report an error and does proceed: it aggregates, ranks and returns a
Python-sliced result, contradicting the claimed equivalence between failure
and `topN ≤ 0`. -/
theorem claim_C1_counterexample :
    analyze_senders [⟨"a@x.com".toList⟩, ⟨"b@y.org".toList⟩] (-1) =
      [("a@x.com".toList, "a@x.com".toList, 1)] ∧
    analyze_senders [⟨"a@x.com".toList⟩, ⟨"b@y.org".toList⟩] 0 = [] := by
  constructor <;> decide

/-- Claim C1 (amended): `analyze_senders` never reports an error for any
`topN`, positive or not; it always proceeds and returns a list.  On the
empty input it returns the empty result for every `topN`; at `topN = 0` it
returns the empty result; and the result never has more rows than the
aggregation table, so malformed headers and non-positive `topN` are both
handled without failure. -/
theorem claim_C1_amended (emails : List Email) (n : Int) :
    analyze_senders [] n = [] ∧
    analyze_senders emails 0 = [] ∧
    (analyze_senders emails n).length ≤ (senderInfo emails).length := by
  refine ⟨?_, ?_, ?_⟩
  · show pyTake n (sortDesc (senderInfo [])) = []
    exact pyTake_nil n
  · exact pyTake_zero _
  · show (pyTake n (sortDesc (senderInfo emails))).length ≤ _
    have h1 := pyTake_length_le n (sortDesc (senderInfo emails))
    rwa [(sortDesc_perm _).length_eq] at h1

/-- Claim C2: on the four headers of the concrete scenario with `topN = 2`,
the analyzer returns exactly the records `(a@x.com, Alice, 3)` and
`(b@x.com, Bob, 1)`, in that order. -/
theorem claim_C2 :
    analyze_senders
      [⟨"Alice <a@x.com>".toList⟩, ⟨"a@x.com".toList⟩,
       ⟨"Bob <b@x.com>".toList⟩, ⟨"Alice <a@x.com>".toList⟩] 2 =
      [("a@x.com".toList, "Alice".toList, 3),
       ("b@x.com".toList, "Bob".toList, 1)] := by
  decide

/-- Claim C3: for every input and every `topN > 0` the result is the
`topN`-prefix of the ranked table; the ranked table is sorted by count
descending, is a permutation of the aggregation table, and ties are kept in
the table's order (its subsequence at any fixed count is unchanged), the
table's order being the first-insertion order of the addresses. -/
theorem claim_C3 (emails : List Email) (n : Int) (c : Nat) (h : 0 < n) :
    analyze_senders emails n = (sortDesc (senderInfo emails)).take n.toNat ∧
    (sortDesc (senderInfo emails)).Pairwise (fun x y => y.2.2 ≤ x.2.2) ∧
    (sortDesc (senderInfo emails)).Perm (senderInfo emails) ∧
    (sortDesc (senderInfo emails)).filter (fun r => r.2.2 = c) =
      (senderInfo emails).filter (fun r => r.2.2 = c) ∧
    (senderInfo emails).map (fun r => r.1) =
      firstSeen ((activeHeaders emails).map extract_email_address) := by
  refine ⟨?_, sortDesc_pairwise _, sortDesc_perm _, sortDesc_filter_count _ _, ?_⟩
  · exact pyTake_of_nonneg n (Int.le_of_lt h) _
  · exact (senderInfo_good emails).2.2.2

/-- Witness for claim C3 at a concrete input with `topN = 2 > 0`. -/
theorem claim_C3_witness :
    analyze_senders sampleB 2 = (sortDesc (senderInfo sampleB)).take ((2 : Int)).toNat ∧
    (sortDesc (senderInfo sampleB)).Pairwise (fun x y => y.2.2 ≤ x.2.2) ∧
    (sortDesc (senderInfo sampleB)).Perm (senderInfo sampleB) ∧
    (sortDesc (senderInfo sampleB)).filter (fun r => r.2.2 = 1) =
      (senderInfo sampleB).filter (fun r => r.2.2 = 1) ∧
    (senderInfo sampleB).map (fun r => r.1) =
      firstSeen ((activeHeaders sampleB).map extract_email_address) :=
  claim_C3 sampleB 2 1 (by decide)

/-- Claim C4: every aggregated record carries the display name extracted
from the first processed header with its address — later occurrences only
increment the count, which equals the number of processed headers with that
address. -/
theorem claim_C4 (emails : List Email) (a n : List Char) (c : Nat)
    (hmem : (a, n, c) ∈ senderInfo emails) :
    ((activeHeaders emails).find? (fun g => extract_email_address g = a)).map
      extract_sender_name = some n ∧
    c = ((activeHeaders emails).filter
      (fun g => extract_email_address g = a)).length :=
  senderInfo_mem emails a n c hmem

/-- Witness for claim C4: `a@x.com` occurs twice in `sampleB` under the
names `Alice` and (bare address); the record keeps the first name, `Alice`,
with count 2. -/
theorem claim_C4_witness :
    ((activeHeaders sampleB).find?
      (fun g => extract_email_address g = "a@x.com".toList)).map
      extract_sender_name = some ("Alice".toList) ∧
    (2 : Nat) = ((activeHeaders sampleB).filter
      (fun g => extract_email_address g = "a@x.com".toList)).length :=
  claim_C4 sampleB ("a@x.com".toList) ("Alice".toList) 2 (by decide)

/-- Claim C10: for every input and every `topN ≥ 0`, the returned addresses
are pairwise distinct, every returned count is at least 1, the counts sum to
at most the number of records with a non-empty `from` field, and the result
length is the minimum of `topN` and the number of distinct normalized
addresses. -/
theorem claim_C10 (emails : List Email) (n : Int) (h : 0 ≤ n) :
    ((analyze_senders emails n).map (fun r => r.1)).Nodup ∧
    ((analyze_senders emails n).all (fun r => 1 ≤ r.2.2) = true) ∧
    ((analyze_senders emails n).map (fun r => r.2.2)).sum ≤ (activeHeaders emails).length ∧
    (analyze_senders emails n).length =
      min n.toNat (((activeHeaders emails).map extract_email_address).dedup).length := by
  have heq : analyze_senders emails n = (sortDesc (senderInfo emails)).take n.toNat :=
    pyTake_of_nonneg n h _
  have hperm := sortDesc_perm (senderInfo emails)
  obtain ⟨hg1, _, hg3, _⟩ := senderInfo_good emails
  refine ⟨?_, ?_, ?_, ?_⟩
  · rw [heq, List.map_take]
    exact ((hperm.map _).nodup_iff.mpr hg1).sublist (List.take_sublist _ _)
  · rw [List.all_eq_true]
    intro r hr
    rw [heq] at hr
    have h3 : r ∈ senderInfo emails := hperm.mem_iff.mp (List.mem_of_mem_take hr)
    simpa using senderInfo_count_pos emails r h3
  · rw [heq, List.map_take]
    have h4 := sum_take_le ((sortDesc (senderInfo emails)).map (fun r => r.2.2)) n.toNat
    have h5 : ((sortDesc (senderInfo emails)).map (fun r => r.2.2)).sum
        = ((senderInfo emails).map (fun r => r.2.2)).sum := (hperm.map _).sum_eq
    omega
  · rw [heq, List.length_take, hperm.length_eq, senderInfo_length]

/-- Witness for claim C10 at a concrete input with `topN = 2 ≥ 0`. -/
theorem claim_C10_witness :
    ((analyze_senders sampleB 2).map (fun r => r.1)).Nodup ∧
    ((analyze_senders sampleB 2).all (fun r => 1 ≤ r.2.2) = true) ∧
    ((analyze_senders sampleB 2).map (fun r => r.2.2)).sum ≤ (activeHeaders sampleB).length ∧
    (analyze_senders sampleB 2).length =
      min ((2 : Int)).toNat (((activeHeaders sampleB).map extract_email_address).dedup).length :=
  claim_C10 sampleB 2 (by decide)

/-- `takeToGt` computed by membership and `takeWhile`. -/
theorem takeToGt_eq (l : List Char) :
    takeToGt l = if ('>') ∈ l then some (l.takeWhile (fun c => c ≠ '>')) else none := by
  induction l with
  | nil => rfl
  | cons c rest ih =>
    unfold takeToGt
    by_cases hc : c = '>'
    · subst hc
      rw [if_pos rfl, if_pos (List.mem_cons_self _ _)]
      rw [takeWhile_eq_nil_head _ _ _ (by simp)]
    · rw [if_neg hc, ih]
      by_cases hm : ('>') ∈ rest
      · rw [if_pos hm, if_pos (List.mem_cons.mpr (Or.inr hm))]
        rw [List.takeWhile_cons_of_pos (by simp [hc])]
        rfl
      · rw [if_neg hm, if_neg (by simp [hm, Ne.symm hc])]
        rfl

/-- `scanToLt` computed by membership and `takeWhile`. -/
theorem scanToLt_eq (l : List Char) :
    scanToLt l = if ('<') ∈ l then some (l.takeWhile (fun c => c ≠ '<')) else none := by
  induction l with
  | nil => rfl
  | cons c rest ih =>
    unfold scanToLt
    by_cases hc : c = '<'
    · subst hc
      rw [if_pos rfl, if_pos (List.mem_cons_self _ _)]
      rw [takeWhile_eq_nil_head _ _ _ (by simp)]
    · rw [if_neg hc, ih]
      by_cases hm : ('<') ∈ rest
      · rw [if_pos hm, if_pos (List.mem_cons.mpr (Or.inr hm))]
        rw [List.takeWhile_cons_of_pos (by simp [hc])]
        rfl
      · rw [if_neg hm, if_neg (by simp [hm, Ne.symm hc])]
        rfl

/-- The angle-bracket scanner agrees with its spec-worded description: the
first opening bracket with a non-empty gap before the next closing
bracket. -/
theorem searchAngle_eq_spec (s : List Char) :
    searchAngle s = specAngleFirstNonempty s := by
  induction s with
  | nil => rfl
  | cons c rest ih =>
    unfold searchAngle specAngleFirstNonempty
    by_cases hc : c = '<'
    · subst hc
      rw [if_pos rfl, takeToGt_eq]
      by_cases hm : ('>') ∈ rest
      · rw [if_pos hm]
        cases htw : rest.takeWhile (fun d => d ≠ '>') with
        | nil =>
          rw [if_neg (by rintro ⟨-, -, hne⟩; exact hne rfl)]
          exact ih
        | cons d ds =>
          rw [if_pos ⟨rfl, hm, by simp⟩]
      · rw [if_neg hm, if_neg (by rintro ⟨-, hm2, -⟩; exact hm hm2)]
        exact ih
    · rw [if_neg hc, if_neg (by rintro ⟨h1, -, -⟩; exact hc h1)]
      exact ih

/-- The name scanner agrees with its description: the non-empty prefix
before the first opening bracket. -/
theorem matchNameSeg_eq (s : List Char) :
    matchNameSeg s =
      if ('<') ∈ s ∧ s.takeWhile (fun x => x ≠ '<') ≠ [] then
        some (s.takeWhile (fun x => x ≠ '<'))
      else none := by
  cases s with
  | nil => rfl
  | cons c rest =>
    simp only [matchNameSeg]
    by_cases hc : c = '<'
    · subst hc
      rw [if_pos rfl, if_neg]
      rintro ⟨-, hne⟩
      exact hne (takeWhile_eq_nil_head _ _ _ (by simp))
    · have htw : (c :: rest).takeWhile (fun x => x ≠ '<') =
          c :: rest.takeWhile (fun x => x ≠ '<') :=
        List.takeWhile_cons_of_pos (by simp [hc])
      rw [if_neg hc, scanToLt_eq]
      by_cases hm : ('<') ∈ rest
      · rw [if_pos hm, if_pos ⟨List.mem_cons.mpr (Or.inr hm), by rw [htw]; simp⟩, htw]
      · rw [if_neg hm, if_neg (by
          rintro ⟨hmem, -⟩
          rcases List.mem_cons.mp hmem with h1 | h2
          · exact hc h1.symm
          · exact hm h2)]

/-- Claim C5, counterexample: on `a<>b<c@d.com>` the substring strictly
between the first opening bracket and its matching closing bracket is empty,
yet `extract_email_address` returns `c@d.com` — the regex `<([^>]+)>`
requires non-empty content and so skips the first bracket pair. -/
theorem claim_C5_counterexample :
    specAngleContent ("a<>b<c@d.com>".toList) = some [] ∧
    extract_email_address ("a<>b<c@d.com>".toList) = "c@d.com".toList ∧
    ¬ ("c@d.com".toList = pyLower (pyStrip ([] : List Char))) := by
  refine ⟨by decide, by decide, by decide⟩

/-- Claim C5 (amended): when `s` has an opening bracket with at least one
character before the next closing bracket, `extract_email_address` returns
the content of the first such bracket pair, trimmed and lowercased. -/
theorem claim_C5_amended (s c : List Char) (h : specAngleFirstNonempty s = some c) :
    extract_email_address s = pyLower (pyStrip c) := by
  unfold extract_email_address
  rw [searchAngle_eq_spec, h]

/-- Witness for claim C5 at a concrete input whose non-empty bracket pair
carries inner whitespace and uppercase. -/
theorem claim_C5_witness :
    extract_email_address ("x <  A@B.C > y".toList) =
      pyLower (pyStrip ("  A@B.C ".toList)) :=
  claim_C5_amended ("x <  A@B.C > y".toList) ("  A@B.C ".toList) (by decide)

/-- Claim C6, counterexample: on the header `""B"" <x@y.z>` the name
segment trimmed of one quote layer is `"B"`, but the code's
`strip('"')` removes every surrounding double quote and returns `B` —
more than one layer of quotes is removed. -/
theorem claim_C6_counterexample :
    ('<') ∈ ("\"\"B\"\" <x@y.z>".toList) ∧
    oneQuoteLayer (pyStrip (("\"\"B\"\" <x@y.z>".toList).takeWhile (fun x => x ≠ '<'))) =
      "\"B\"".toList ∧
    extract_sender_name ("\"\"B\"\" <x@y.z>".toList) = "B".toList ∧
    ¬ ("B".toList = "\"B\"".toList) := by
  refine ⟨by decide, by decide, by decide, by decide⟩

/-- Claim C6 (amended): for an input containing an opening bracket, the
display name is everything before the first opening bracket, trimmed of
whitespace, then of ALL surrounding double quotes, then of ALL surrounding
single quotes — whenever that result is non-empty. -/
theorem claim_C6_amended (s : List Char) (hlt : ('<') ∈ s)
    (hne : pyStripWith (fun x => x = squote) (pyStripWith (fun x => x = dquote)
      (pyStrip (s.takeWhile (fun x => x ≠ '<')))) ≠ []) :
    extract_sender_name s =
      pyStripWith (fun x => x = squote) (pyStripWith (fun x => x = dquote)
        (pyStrip (s.takeWhile (fun x => x ≠ '<')))) := by
  have hseg : s.takeWhile (fun x => x ≠ '<') ≠ [] := by
    intro hempty
    rw [hempty] at hne
    exact hne rfl
  unfold extract_sender_name
  rw [matchNameSeg_eq, if_pos ⟨hlt, hseg⟩]
  simp only []
  rw [if_neg hne]

/-- Witness for claim C6 at a concrete quoted name. -/
theorem claim_C6_witness :
    extract_sender_name ("\"N\" <q>".toList) =
      pyStripWith (fun x => x = squote) (pyStripWith (fun x => x = dquote)
        (pyStrip (("\"N\" <q>".toList).takeWhile (fun x => x ≠ '<')))) :=
  claim_C6_amended ("\"N\" <q>".toList) (by decide) (by decide)

/-- Claim C7, counterexample: on the input `< >` the name segment is absent
and the extracted address is the empty string, so the display name IS the
empty string — the produced Identity does not have a non-empty
displayName. -/
theorem claim_C7_counterexample :
    extract_email_address ("< >".toList) = [] ∧
    extract_sender_name ("< >".toList) = [] := by
  refine ⟨by decide, by decide⟩

/-- Claim C7 (amended): when the segment before the first opening bracket
is absent or whitespace-only, the display name equals the extracted
address; and the display name is non-empty whenever the extracted address
is non-empty (it can be empty only together with the address, as for
whitespace-only or bracket-only inputs). -/
theorem claim_C7_amended (s t : List Char)
    (h : ('<') ∉ s ∨ pyStrip (s.takeWhile (fun x => x ≠ '<')) = [])
    (ht : extract_email_address t ≠ []) :
    extract_sender_name s = extract_email_address s ∧
    extract_sender_name t ≠ [] := by
  constructor
  · unfold extract_sender_name
    rw [matchNameSeg_eq]
    rcases h with hno | hempty
    · rw [if_neg (by rintro ⟨hmem, -⟩; exact hno hmem)]
    · by_cases hcond : ('<') ∈ s ∧ s.takeWhile (fun x => x ≠ '<') ≠ []
      · rw [if_pos hcond]
        simp only []
        rw [if_pos (by rw [hempty]; rfl)]
      · rw [if_neg hcond]
  · unfold extract_sender_name
    cases hm : matchNameSeg t with
    | none => exact ht
    | some g =>
      simp only []
      split
      · exact ht
      · rename_i hn
        exact hn

/-- Witness for claim C7: a bare-address input has no name segment and a
non-empty address, so the display name equals the address and is
non-empty. -/
theorem claim_C7_witness :
    extract_sender_name ("a@x.com".toList) = extract_email_address ("a@x.com".toList) ∧
    extract_sender_name ("b@y.org".toList) ≠ [] :=
  claim_C7_amended ("a@x.com".toList) ("b@y.org".toList) (Or.inl (by decide)) (by decide)

/-- Lowercasing a list twice is lowercasing it once. -/
theorem pyLower_idem (l : List Char) : pyLower (pyLower l) = pyLower l := by
  induction l with
  | nil => rfl
  | cons c rest ih =>
    simp only [pyLower, List.map_cons] at ih ⊢
    rw [pyLowerChar_idem, ih]

/-- A lowercased list is empty exactly when the original is. -/
theorem pyLower_eq_nil (l : List Char) : pyLower l = [] ↔ l = [] := by
  unfold pyLower
  exact List.map_eq_nil_iff

/-- `takeToGt` commutes with lowercasing. -/
theorem takeToGt_pyLower (l : List Char) :
    takeToGt (pyLower l) = (takeToGt l).map pyLower := by
  induction l with
  | nil => rfl
  | cons c rest ih =>
    simp only [pyLower, List.map_cons]
    unfold takeToGt
    by_cases hc : c = '>'
    · rw [if_pos ((pyLowerChar_eq_iff c '>' (by decide) (by decide)).mpr hc), if_pos hc]
      rfl
    · rw [if_neg (fun hh => hc ((pyLowerChar_eq_iff c '>' (by decide) (by decide)).mp hh)),
        if_neg hc]
      rw [show List.map pyLowerChar rest = pyLower rest from rfl, ih]
      cases takeToGt rest <;> rfl

/-- The angle-bracket scanner commutes with lowercasing. -/
theorem searchAngle_pyLower (l : List Char) :
    searchAngle (pyLower l) = (searchAngle l).map pyLower := by
  induction l with
  | nil => rfl
  | cons c rest ih =>
    simp only [pyLower, List.map_cons]
    unfold searchAngle
    by_cases hc : c = '<'
    · rw [if_pos ((pyLowerChar_eq_iff c '<' (by decide) (by decide)).mpr hc), if_pos hc]
      rw [show List.map pyLowerChar rest = pyLower rest from rfl, takeToGt_pyLower]
      cases htg : takeToGt rest with
      | none => exact ih
      | some t =>
        cases t with
        | nil => exact ih
        | cons d ds => rfl
    · rw [if_neg (fun hh => hc ((pyLowerChar_eq_iff c '<' (by decide) (by decide)).mp hh)),
        if_neg hc]
      exact ih

/-- `takeWhile` with a case-invariant predicate commutes with
lowercasing. -/
theorem takeWhile_pyLower (p : Char → Bool) (hp : ∀ c, p (pyLowerChar c) = p c)
    (l : List Char) : (pyLower l).takeWhile p = pyLower (l.takeWhile p) := by
  unfold pyLower
  rw [List.takeWhile_map, show p ∘ pyLowerChar = p from funext hp]

/-- `dropWhile` with a case-invariant predicate commutes with
lowercasing. -/
theorem dropWhile_pyLower (p : Char → Bool) (hp : ∀ c, p (pyLowerChar c) = p c)
    (l : List Char) : (pyLower l).dropWhile p = pyLower (l.dropWhile p) := by
  unfold pyLower
  rw [List.dropWhile_map, show p ∘ pyLowerChar = p from funext hp]

/-- The backtracking dot split commutes with lowercasing. -/
theorem lastDotSplit_pyLower (l : List Char) :
    lastDotSplit (pyLower l) =
      (lastDotSplit l).map (fun pr => (pyLower pr.1, pyLower pr.2)) := by
  induction l with
  | nil => rfl
  | cons c rest ih =>
    simp only [pyLower, List.map_cons]
    unfold lastDotSplit
    rw [show List.map pyLowerChar rest = pyLower rest from rfl, ih]
    cases hld : lastDotSplit rest with
    | some pr =>
      obtain ⟨pre, run⟩ := pr
      rfl
    | none =>
      rw [takeWhile_pyLower isWordChar isWordChar_pyLowerChar rest]
      by_cases hcond : c = '.' ∧ rest.takeWhile isWordChar ≠ []
      · rw [if_pos ⟨(pyLowerChar_eq_iff c '.' (by decide) (by decide)).mpr hcond.1,
          fun hh => hcond.2 ((pyLower_eq_nil _).mp hh)⟩, if_pos hcond]
        rfl
      · rw [if_neg ?hil, if_neg hcond]
        · rfl
        case hil =>
          rintro ⟨h1, h2⟩
          exact hcond ⟨(pyLowerChar_eq_iff c '.' (by decide) (by decide)).mp h1,
            fun hh => h2 (by rw [hh]; rfl)⟩

/-- One e-mail-pattern attempt commutes with lowercasing. -/
theorem matchEmailAt_pyLower (l : List Char) :
    matchEmailAt (pyLower l) = (matchEmailAt l).map pyLower := by
  unfold matchEmailAt
  rw [dropWhile_pyLower isClassChar isClassChar_pyLowerChar l,
    takeWhile_pyLower isClassChar isClassChar_pyLowerChar l]
  cases hdw : l.dropWhile isClassChar with
  | nil => rfl
  | cons d rest =>
    simp only [pyLower, List.map_cons]
    by_cases hd : d = '@'
    · rw [if_pos ((pyLowerChar_eq_iff d '@' (by decide) (by decide)).mpr hd), if_pos hd]
      by_cases hr1 : l.takeWhile isClassChar = []
      · rw [if_pos (by rw [hr1]; rfl), if_pos hr1]
        rfl
      · have hmn : ¬ (List.map pyLowerChar (l.takeWhile isClassChar) = []) :=
          fun hh => hr1 (List.map_eq_nil_iff.mp hh)
        rw [if_neg hmn, if_neg hr1]
        rw [show List.map pyLowerChar rest = pyLower rest from rfl,
          takeWhile_pyLower isClassChar isClassChar_pyLowerChar rest,
          lastDotSplit_pyLower]
        cases hld : lastDotSplit (rest.takeWhile isClassChar) with
        | none => rfl
        | some pr =>
          obtain ⟨pre, run⟩ := pr
          cases pre with
          | nil => rfl
          | cons p0 ps =>
            have hat : pyLowerChar '@' = '@' := by decide
            have hdot : pyLowerChar '.' = '.' := by decide
            simp [pyLower, List.map_append, hat, hdot]
    · rw [if_neg (fun hh => hd ((pyLowerChar_eq_iff d '@' (by decide) (by decide)).mp hh)),
        if_neg hd]
      rfl

/-- The e-mail search commutes with lowercasing. -/
theorem searchEmail_pyLower (l : List Char) :
    searchEmail (pyLower l) = (searchEmail l).map pyLower := by
  induction l with
  | nil => rfl
  | cons c rest ih =>
    have hcons : pyLower (c :: rest) = pyLowerChar c :: pyLower rest := rfl
    simp only [pyLower, List.map_cons]
    unfold searchEmail
    rw [show pyLowerChar c :: List.map pyLowerChar rest = pyLower (c :: rest) from rfl,
      matchEmailAt_pyLower]
    cases hme : matchEmailAt (c :: rest) with
    | some m => rfl
    | none =>
      exact ih

/-- A Python strip with a case-invariant class commutes with lowercasing. -/
theorem pyStripWith_pyLower (p : Char → Bool) (hp : ∀ c, p (pyLowerChar c) = p c)
    (l : List Char) : pyStripWith p (pyLower l) = pyLower (pyStripWith p l) := by
  unfold pyStripWith
  rw [show (pyLower l).dropWhile p = pyLower (l.dropWhile p) from
    dropWhile_pyLower p hp l]
  rw [show (pyLower (l.dropWhile p)).reverse = pyLower (l.dropWhile p).reverse from
    List.reverse_map ..]
  rw [dropWhile_pyLower p hp]
  exact List.reverse_map ..

/-- Address extraction is insensitive to lowercasing its input. -/
theorem extract_email_address_pyLower (s : List Char) :
    extract_email_address (pyLower s) = extract_email_address s := by
  unfold extract_email_address
  rw [searchAngle_pyLower]
  cases hsa : searchAngle s with
  | some g =>
    show pyLower (pyStrip (pyLower g)) = pyLower (pyStrip g)
    unfold pyStrip
    rw [pyStripWith_pyLower pyIsSpace pyIsSpace_pyLowerChar, pyLower_idem]
  | none =>
    rw [searchEmail_pyLower]
    cases hse : searchEmail s with
    | some m =>
      show pyLower (pyStrip (pyLower m)) = pyLower (pyStrip m)
      unfold pyStrip
      rw [pyStripWith_pyLower pyIsSpace pyIsSpace_pyLowerChar, pyLower_idem]
    | none =>
      show pyLower (pyStrip (pyLower s)) = pyLower (pyStrip s)
      unfold pyStrip
      rw [pyStripWith_pyLower pyIsSpace pyIsSpace_pyLowerChar, pyLower_idem]

/-- Claim C8: two raw headers that agree up to letter case — in particular
two that differ only in the case of the embedded address — extract to the
same lowercased address, so they aggregate to the same record. -/
theorem claim_C8 (s t : List Char) (h : pyLower s = pyLower t) :
    (extract s).address = (extract t).address := by
  show extract_email_address s = extract_email_address t
  calc extract_email_address s
      = extract_email_address (pyLower s) := (extract_email_address_pyLower s).symm
    _ = extract_email_address (pyLower t) := by rw [h]
    _ = extract_email_address t := extract_email_address_pyLower t

/-- Witness for claim C8: the spec's concrete pair, differing only in the
case of the embedded address. -/
theorem claim_C8_witness :
    (extract ("A <X@Y.COM>".toList)).address = (extract ("A <x@y.com>".toList)).address :=
  claim_C8 ("A <X@Y.COM>".toList) ("A <x@y.com>".toList) (by decide)

/-- Without an opening bracket the angle scanner fails. -/
theorem searchAngle_of_not_mem (s : List Char) (h : ('<') ∉ s) : searchAngle s = none := by
  induction s with
  | nil => rfl
  | cons c rest ih =>
    unfold searchAngle
    rw [if_neg (fun hh => h (by rw [hh]; exact List.mem_cons_self _ _))]
    exact ih (fun hm => h (List.mem_cons.mpr (Or.inr hm)))

/-- Without an opening bracket the name scanner fails. -/
theorem matchNameSeg_of_not_mem (s : List Char) (h : ('<') ∉ s) : matchNameSeg s = none := by
  rw [matchNameSeg_eq, if_neg (fun hc => h hc.1)]

/-- An e-mail attempt at a non-class, non-at head fails. -/
theorem matchEmailAt_head_fail (c : Char) (X : List Char)
    (h1 : isClassChar c = false) (h2 : c ≠ '@') : matchEmailAt (c :: X) = none := by
  unfold matchEmailAt
  rw [List.dropWhile_cons_of_neg (by simp [h1])]
  simp only []
  rw [if_neg h2]

/-- Unfolding of the e-mail search at a cons cell. -/
theorem searchEmail_cons (c : Char) (X : List Char) :
    searchEmail (c :: X) = match matchEmailAt (c :: X) with
      | some m => some m
      | none => searchEmail X := rfl

/-- The e-mail search skips a whitespace prefix. -/
theorem searchEmail_prefix_space (w l : List Char) (hw : ∀ c ∈ w, pyIsSpace c = true) :
    searchEmail (w ++ l) = searchEmail l := by
  induction w with
  | nil => rfl
  | cons c w2 ih =>
    have hc := hw c (by simp)
    have hic : isClassChar c = false := not_isClassChar_of_pyIsSpace c hc
    have hat : c ≠ '@' := by
      intro hh
      rw [hh] at hc
      revert hc
      decide
    rw [List.cons_append, searchEmail_cons, matchEmailAt_head_fail c _ hic hat]
    exact ih (fun a ha => hw a (by simp [ha]))

/-- A successful attempt at the head decides the search. -/
theorem searchEmail_head_some (l m : List Char) (hne : l ≠ []) (h : matchEmailAt l = some m) :
    searchEmail l = some m := by
  cases l with
  | nil => exact absurd rfl hne
  | cons c X =>
    unfold searchEmail
    rw [h]

/-- On a full bare address followed by trailing whitespace, the e-mail
attempt matches exactly the bare address. -/
theorem matchEmailAt_bare (A rest w2 pre run : List Char)
    (hA : A ≠ []) (hAc : ∀ c ∈ A, isClassChar c = true)
    (hrc : ∀ c ∈ rest, isClassChar c = true)
    (hld : lastDotSplit rest = some (pre, run)) (hpre : pre ≠ [])
    (hsplit : pre ++ '.' :: run = rest)
    (hw : ∀ c ∈ w2, pyIsSpace c = true) :
    matchEmailAt ((A ++ '@' :: rest) ++ w2) = some (A ++ '@' :: rest) := by
  have hw2c : ∀ c ∈ w2, isClassChar c = false :=
    fun c hc => not_isClassChar_of_pyIsSpace c (hw c hc)
  have hat : isClassChar '@' = false := by decide
  have hassoc : (A ++ '@' :: rest) ++ w2 = A ++ '@' :: (rest ++ w2) := by simp
  have htw : ((A ++ '@' :: rest) ++ w2).takeWhile isClassChar = A := by
    rw [hassoc, takeWhile_append_all _ _ _ hAc,
      takeWhile_eq_nil_head _ _ _ hat, List.append_nil]
  have hdw : ((A ++ '@' :: rest) ++ w2).dropWhile isClassChar = '@' :: (rest ++ w2) := by
    rw [hassoc, dropWhile_append_all _ _ _ hAc, List.dropWhile_cons_of_neg (by simp [hat])]
  have htw2 : (rest ++ w2).takeWhile isClassChar = rest := by
    rw [takeWhile_append_all _ _ _ hrc]
    cases w2 with
    | nil => simp
    | cons c w3 => rw [takeWhile_eq_nil_head _ _ _ (hw2c c (by simp)), List.append_nil]
  unfold matchEmailAt
  rw [hdw]
  simp only [htw, htw2, hld]
  simp [hA, hpre, hsplit]

/-- Claim C9: a raw header with no angle brackets whose trimmed form is a
bare e-mail address extracts to address and display name both equal to the
lowercased, trimmed header. -/
theorem claim_C9 (s : List Char) (h1 : ('<') ∉ s) (h2 : ('>') ∉ s)
    (h3 : isBareAddress (pyStrip s) = true) :
    (extract s).address = pyLower (pyStrip s) ∧
    (extract s).displayName = pyLower (pyStrip s) := by
  unfold isBareAddress at h3
  cases hdw : (pyStrip s).dropWhile isClassChar with
  | nil => rw [hdw] at h3; simp at h3
  | cons d rest =>
    rw [hdw] at h3
    simp only [Bool.and_eq_true, decide_eq_true_eq, List.all_eq_true] at h3
    obtain ⟨⟨⟨hdat, hAne⟩, hallc⟩, hM⟩ := h3
    subst hdat
    cases hld : lastDotSplit rest with
    | none => rw [hld] at hM; simp at hM
    | some pr =>
      obtain ⟨pre, run⟩ := pr
      rw [hld] at hM
      simp only [Bool.and_eq_true, decide_eq_true_eq] at hM
      obtain ⟨hprene, hpr⟩ := hM
      have hAc : ∀ c ∈ (pyStrip s).takeWhile isClassChar, isClassChar c = true :=
        fun c hc => List.mem_takeWhile_imp hc
      have hcore : pyStrip s = (pyStrip s).takeWhile isClassChar ++ '@' :: rest := by
        conv_lhs => rw [← List.takeWhile_append_dropWhile (p := isClassChar) (l := pyStrip s)]
        rw [hdw]
      obtain ⟨w1, w2, hs, hw1, hw2⟩ := pyStripWith_decomp pyIsSpace s
      have hmb := matchEmailAt_bare ((pyStrip s).takeWhile isClassChar) rest w2 pre run
        hAne hAc hallc hld hprene hpr hw2
      have hse : searchEmail s = some (pyStrip s) := by
        have hs2 : s = w1 ++ ((pyStrip s) ++ w2) := by
          rw [show pyStrip s = pyStripWith pyIsSpace s from rfl] at hcore ⊢
          rw [← List.append_assoc, ← hs]
        conv_lhs => rw [hs2]
        rw [searchEmail_prefix_space w1 _ hw1]
        rw [show (pyStrip s) ++ w2 = ((pyStrip s).takeWhile isClassChar ++ '@' :: rest) ++ w2
          from by rw [← hcore]]
        rw [searchEmail_head_some _ _ (by simp) hmb, ← hcore]
      have hnospace : ∀ c ∈ pyStrip s, pyIsSpace c = false := by
        intro c hc
        rw [hcore] at hc
        rcases List.mem_append.mp hc with hca | hcr
        · exact not_pyIsSpace_of_isClassChar c (hAc c hca)
        · rcases List.mem_cons.mp hcr with rfl | hcr2
          · decide
          · exact not_pyIsSpace_of_isClassChar c (hallc c hcr2)
      have hstrip2 : pyStrip (pyStrip s) = pyStrip s :=
        pyStripWith_eq_self pyIsSpace (pyStrip s) hnospace
      have haddr : extract_email_address s = pyLower (pyStrip s) := by
        unfold extract_email_address
        rw [searchAngle_of_not_mem s h1, hse]
        show pyLower (pyStrip (pyStrip s)) = pyLower (pyStrip s)
        rw [hstrip2]
      refine ⟨haddr, ?_⟩
      show extract_sender_name s = pyLower (pyStrip s)
      unfold extract_sender_name
      rw [matchNameSeg_of_not_mem s h1]
      exact haddr

/-- Witness for claim C9 on a padded uppercase bare address with dots and a
hyphen. -/
theorem claim_C9_witness :
    (extract ("  Jo.Bob-1@Mail.co.uk ".toList)).address =
      pyLower (pyStrip ("  Jo.Bob-1@Mail.co.uk ".toList)) ∧
    (extract ("  Jo.Bob-1@Mail.co.uk ".toList)).displayName =
      pyLower (pyStrip ("  Jo.Bob-1@Mail.co.uk ".toList)) :=
  claim_C9 ("  Jo.Bob-1@Mail.co.uk ".toList) (by decide) (by decide) (by decide)

example : extract_email_address ("Alice <a@x.com>".toList) = "a@x.com".toList := by decide
example : extract_email_address ("a@x.com".toList) = "a@x.com".toList := by decide
example : extract_sender_name ("Alice <a@x.com>".toList) = "Alice".toList := by decide
example : extract_email_address (" A@X.COM ".toList) = "a@x.com".toList := by decide
example : extract_email_address ("no-email-here".toList) = "no-email-here".toList := by decide
example : extract_sender_name ("no-email-here".toList) = "no-email-here".toList := by decide
example :
    analyze_senders
      [⟨"Alice <a@x.com>".toList⟩, ⟨"a@x.com".toList⟩,
       ⟨"Bob <b@x.com>".toList⟩, ⟨"Alice <a@x.com>".toList⟩] 2 =
      [("a@x.com".toList, "Alice".toList, 3), ("b@x.com".toList, "Bob".toList, 1)] := by
  decide

example : extract_email_address ("a<>b<c@d.com>".toList) = "c@d.com".toList := by decide
example : specAngleContent ("a<>b<c@d.com>".toList) = some [] := by decide
example : specAngleFirstNonempty ("a<>b<c@d.com>".toList) = some ("c@d.com".toList) := by decide
example : extract_sender_name ("\"\"B\"\" <x@y.z>".toList) = "B".toList := by decide
example : oneQuoteLayer (pyStrip (("\"\"B\"\" <x@y.z>".toList).takeWhile (fun c => c ≠ '<'))) =
    "\"B\"".toList := by decide
example : extract_sender_name ("< >".toList) = [] := by decide
example : isBareAddress ("a@x.com".toList) = true := by decide
example : isBareAddress ("a b@x.com".toList) = false := by decide
example : analyze_senders [⟨"a@x.com".toList⟩, ⟨"b@y.org".toList⟩] (-1) =
    [("a@x.com".toList, "a@x.com".toList, 1)] := by decide
example : analyze_senders [⟨"a@x.com".toList⟩, ⟨"b@y.org".toList⟩] 0 = [] := by decide
